import Mathlib

/-!
Verification of the path-guided emulation engine in `flare_emu.py`.

The Python source is shallowly embedded: each Lean definition below mirrors
one Python function (named after it), with the mutable emulator state made
explicit.  Unbounded Python integers become `Nat`; the few places where the
source masks with a fixed-width constant (`addr & 0xfffffffffffff000`) are
modelled with an explicit `% 2 ^ 64` as noted at the definition.
-/

set_option maxRecDepth 8000
set_option maxHeartbeats 1600000

namespace FlareEmu

/-- Source constant `PAGESIZE = 0x1000`. -/
def PAGESIZE : Nat := 0x1000

/-- Source constant `MAX_ALLOC_SIZE = 10 * 1024 * 1024`. -/
def MAX_ALLOC_SIZE : Nat := 10 * 1024 * 1024

/-- Source `pageAlignUp(v)`: `if v & PAGEALIGNCHECK != 0: v += PAGESIZE - (v % PAGESIZE)`.
For a nonnegative Python int, `v & 0xfff ≠ 0` is exactly `v % 0x1000 ≠ 0`. -/
@[irreducible] def pageAlignUp (v : Nat) : Nat :=
  if v % PAGESIZE ≠ 0 then v + (PAGESIZE - v % PAGESIZE) else v

/-- Source `pageAlign(addr)`: `addr & 0xfffffffffffff000`.  The mask keeps bits
12..63 of the Python int, i.e. it first truncates to 64 bits and then clears
the low 12 bits; we write that arithmetically. -/
@[irreducible] def pageAlign (addr : Nat) : Nat :=
  addr % 2 ^ 64 - addr % 2 ^ 64 % PAGESIZE

/-- A mapped emulator memory region, as tracked by unicorn: a base address and
a byte size.  `uc.mem_regions()` reports such a region as the tuple
`(base, base + size - 1, perms)` with an inclusive end address. -/
structure Region where
  base : Nat
  size : Nat
deriving Repr, DecidableEq

/-- Inclusive end address `region[1]` of a region as reported by
`uc.mem_regions()`. -/
def Region.last (r : Region) : Nat := r.base + r.size - 1

/-- The emulator memory state visible to the Memory Manager: the list of
mapped regions (in mapping order, as iterated by `uc.mem_regions()`) together
with the end addresses of the loaded image's segments (iterated by
`idautils.Segments()` / `idc.get_segm_end`). -/
structure EmuMem where
  regions : List Region
  segEnds : List Nat
deriving Repr, DecidableEq

/-- Source `_findUnusedMemRegion`: start at `0x10000`, raise to the largest
inclusive region end among `uc.mem_regions()`, then to the largest segment end,
add a page and align up. -/
@[irreducible] def findUnusedMemRegion (m : EmuMem) : Nat :=
  pageAlignUp
    (m.segEnds.foldl (fun h e => if e > h then e else h)
      (m.regions.foldl (fun h r => if r.last > h then r.last else h) 0x10000)
     + PAGESIZE)

/-- The collision test of `allocEmuMem` against one region of
`uc.mem_regions()` (the two `if` statements in the `for region` loop): the
start or the end of the requested range falls inside `[region[0], region[1])`,
or the requested range strictly envelopes the region. -/
def collidesWith (baseAddr allocSize : Nat) (r : Region) : Bool :=
  (decide (baseAddr ≥ r.base) && decide (baseAddr < r.last)) ||
  (decide (baseAddr + allocSize ≥ r.base) && decide (baseAddr + allocSize < r.last)) ||
  (decide (baseAddr < r.base) && decide (baseAddr + allocSize > r.last))

/-- Result of one `allocEmuMem` call: the returned address, the base and size
actually passed to `uc.mem_map`, and the new memory state. -/
structure AllocResult where
  addr : Nat
  base : Nat
  allocSize : Nat
  mem : EmuMem
deriving Repr, DecidableEq

/-- Source `allocEmuMem(size, addr=None)`: page-align the size up; with no
preferred address map at `_findUnusedMemRegion()`; with a preferred address
page-align it down, keep the intra-page offset, scan `uc.mem_regions()` for a
collision and on collision fall back to `_findUnusedMemRegion()` re-adding the
offset.  `uc.mem_map` appends the new region to the emulator's region list. -/
def allocEmuMem (m : EmuMem) (size : Nat) (addr? : Option Nat) : AllocResult :=
  let allocSize := pageAlignUp size
  match addr? with
  | none =>
      let b := findUnusedMemRegion m
      ⟨b, b, allocSize, ⟨m.regions ++ [⟨b, allocSize⟩], m.segEnds⟩⟩
  | some addr =>
      let baseAddr := pageAlign addr
      let offs := addr - baseAddr
      let isValid := ¬ m.regions.any (collidesWith baseAddr allocSize)
      if isValid then
        ⟨addr, baseAddr, allocSize, ⟨m.regions ++ [⟨baseAddr, allocSize⟩], m.segEnds⟩⟩
      else
        let b := findUnusedMemRegion m
        ⟨b + offs, b, allocSize, ⟨m.regions ++ [⟨b, allocSize⟩], m.segEnds⟩⟩

/-- Two half-open address ranges `[base, base+size)` intersect. -/
def Overlaps (r s : Region) : Prop :=
  r.base < s.base + s.size ∧ s.base < r.base + r.size

instance : DecidablePred fun p : Region × Region => Overlaps p.1 p.2 := by
  intro p
  unfold Overlaps
  infer_instance

/-- A region as produced by `allocEmuMem` itself: page-aligned base, a
positive page-multiple size. -/
def Region.Wf (r : Region) : Prop :=
  r.base % PAGESIZE = 0 ∧ r.size % PAGESIZE = 0 ∧ 0 < r.size

/-- Every mapped region is well formed. -/
def EmuMem.Wf (m : EmuMem) : Prop := ∀ r ∈ m.regions, r.Wf

/-- Folding a sequence of `allocEmuMem` calls (each a requested size and an
optional preferred address), threading the memory state. -/
def allocRun (m : EmuMem) : List (Nat × Option Nat) → EmuMem
  | [] => m
  | (sz, a?) :: rest => allocRun (allocEmuMem m sz a?).mem rest

-- basic facts about the page helpers

theorem pageAlignUp_mod (v : Nat) : pageAlignUp v % PAGESIZE = 0 := by
  unfold pageAlignUp PAGESIZE
  split
  · omega
  · omega

theorem le_pageAlignUp (v : Nat) : v ≤ pageAlignUp v := by
  unfold pageAlignUp
  split <;> omega

theorem pageAlign_mod (v : Nat) : pageAlign v % PAGESIZE = 0 := by
  unfold pageAlign PAGESIZE
  omega

theorem pageAlign_le (v : Nat) : pageAlign v ≤ v := by
  unfold pageAlign
  have h := Nat.mod_le v (2 ^ 64)
  omega

theorem pageAlign_eq_of_lt (v : Nat) (h : v < 2 ^ 64) :
    pageAlign v = v - v % PAGESIZE := by
  unfold pageAlign
  rw [Nat.mod_eq_of_lt h]

-- the running maximum loops of _findUnusedMemRegion

theorem foldl_pymax_init_le (f : α → Nat) (l : List α) (init : Nat) :
    init ≤ l.foldl (fun h r => if f r > h then f r else h) init := by
  induction l generalizing init with
  | nil => exact Nat.le_refl _
  | cons x xs ih =>
      simp only [List.foldl_cons]
      refine Nat.le_trans ?_ (ih (if f x > init then f x else init))
      split <;> omega

theorem foldl_pymax_mem_le (f : α → Nat) (l : List α) (init : Nat) (x : α)
    (hx : x ∈ l) :
    f x ≤ l.foldl (fun h r => if f r > h then f r else h) init := by
  induction l generalizing init with
  | nil => cases hx
  | cons y ys ih =>
      simp only [List.foldl_cons]
      rcases List.mem_cons.mp hx with h | h
      · subst h
        refine Nat.le_trans ?_ (foldl_pymax_init_le f ys _)
        split <;> omega
      · exact ih _ h

/-- Every inclusive region end is below the base chosen by
`_findUnusedMemRegion`, strictly. -/
theorem findUnusedMemRegion_gt_last (m : EmuMem) (r : Region)
    (hr : r ∈ m.regions) : r.last < findUnusedMemRegion m := by
  unfold findUnusedMemRegion
  have h1 : r.last ≤
      m.regions.foldl (fun h r => if r.last > h then r.last else h) 0x10000 :=
    foldl_pymax_mem_le Region.last m.regions 0x10000 r hr
  have h2 : m.regions.foldl (fun h r => if r.last > h then r.last else h) 0x10000 ≤
      m.segEnds.foldl (fun h e => if e > h then e else h)
        (m.regions.foldl (fun h r => if r.last > h then r.last else h) 0x10000) :=
    foldl_pymax_init_le id m.segEnds _
  have h3 := le_pageAlignUp
    ((m.segEnds.foldl (fun h e => if e > h then e else h)
      (m.regions.foldl (fun h r => if r.last > h then r.last else h) 0x10000)) + PAGESIZE)
  have hp : 0 < PAGESIZE := by decide
  omega

theorem findUnusedMemRegion_mod (m : EmuMem) :
    findUnusedMemRegion m % PAGESIZE = 0 := by
  unfold findUnusedMemRegion
  exact pageAlignUp_mod _

-- disjointness of a fresh allocation

theorem not_overlaps_of_findUnused (m : EmuMem) (hwf : m.Wf) (L : Nat)
    (r : Region) (hr : r ∈ m.regions) :
    ¬ Overlaps ⟨findUnusedMemRegion m, L⟩ r := by
  intro hov
  unfold Overlaps at hov
  obtain ⟨h1, h2⟩ := hov
  have hgt := findUnusedMemRegion_gt_last m r hr
  have hpos := (hwf r hr).2.2
  unfold Region.last at hgt
  simp only at h1 h2
  omega

theorem not_overlaps_of_not_collides (b L : Nat) (r : Region)
    (hb : b % PAGESIZE = 0) (hL : L % PAGESIZE = 0) (hr : r.Wf)
    (hc : collidesWith b L r = false) : ¬ Overlaps ⟨b, L⟩ r := by
  intro hov
  unfold Overlaps at hov
  obtain ⟨h1, h2⟩ := hov
  simp only at h1 h2
  obtain ⟨hrb, hrs, hrpos⟩ := hr
  simp only [collidesWith, Region.last, Bool.or_eq_false_iff,
    Bool.and_eq_false_iff, decide_eq_false_iff_not, not_le, not_lt] at hc
  unfold PAGESIZE at hb hL hrb hrs
  omega

-- unfolding equations for the three branches of allocEmuMem

theorem allocEmuMem_none (m : EmuMem) (size : Nat) :
    allocEmuMem m size none =
      ⟨findUnusedMemRegion m, findUnusedMemRegion m, pageAlignUp size,
       ⟨m.regions ++ [⟨findUnusedMemRegion m, pageAlignUp size⟩], m.segEnds⟩⟩ := rfl

theorem allocEmuMem_some_valid (m : EmuMem) (size addr : Nat)
    (h : m.regions.any (collidesWith (pageAlign addr) (pageAlignUp size)) = false) :
    allocEmuMem m size (some addr) =
      ⟨addr, pageAlign addr, pageAlignUp size,
       ⟨m.regions ++ [⟨pageAlign addr, pageAlignUp size⟩], m.segEnds⟩⟩ := by
  simp [allocEmuMem, h]

theorem allocEmuMem_some_invalid (m : EmuMem) (size addr : Nat)
    (h : m.regions.any (collidesWith (pageAlign addr) (pageAlignUp size)) = true) :
    allocEmuMem m size (some addr) =
      ⟨findUnusedMemRegion m + (addr - pageAlign addr), findUnusedMemRegion m,
       pageAlignUp size,
       ⟨m.regions ++ [⟨findUnusedMemRegion m, pageAlignUp size⟩], m.segEnds⟩⟩ := by
  simp [allocEmuMem, h]

/-- One `allocEmuMem` call on a well-formed memory: the newly mapped region is
page-aligned (base and size), its size is the page-aligned-up requested size,
it overlaps no region mapped at the time of the call, it is appended to the
region list, and well-formedness is preserved. -/
theorem allocEmuMem_step (m : EmuMem) (size : Nat) (addr? : Option Nat)
    (hwf : m.Wf) (hsz : 0 < size) :
    (allocEmuMem m size addr?).base % PAGESIZE = 0 ∧
    (allocEmuMem m size addr?).allocSize = pageAlignUp size ∧
    (∀ r ∈ m.regions,
       ¬ Overlaps ⟨(allocEmuMem m size addr?).base,
                   (allocEmuMem m size addr?).allocSize⟩ r) ∧
    (allocEmuMem m size addr?).mem.regions =
      m.regions ++ [⟨(allocEmuMem m size addr?).base,
                     (allocEmuMem m size addr?).allocSize⟩] ∧
    (allocEmuMem m size addr?).mem.Wf := by
  have hLmod : pageAlignUp size % PAGESIZE = 0 := pageAlignUp_mod size
  have hLpos : 0 < pageAlignUp size := Nat.lt_of_lt_of_le hsz (le_pageAlignUp size)
  have hwfNew : ∀ b, b % PAGESIZE = 0 →
      (EmuMem.mk (m.regions ++ [⟨b, pageAlignUp size⟩]) m.segEnds).Wf := by
    intro b hbmod r hr
    rcases List.mem_append.mp hr with h | h
    · exact hwf r h
    · rcases List.mem_singleton.mp h with rfl
      exact ⟨hbmod, hLmod, hLpos⟩
  match addr? with
  | none =>
      rw [allocEmuMem_none]
      exact ⟨findUnusedMemRegion_mod m, rfl,
        fun r hr => not_overlaps_of_findUnused m hwf _ r hr, rfl,
        hwfNew _ (findUnusedMemRegion_mod m)⟩
  | some addr =>
      rcases hv : m.regions.any (collidesWith (pageAlign addr) (pageAlignUp size)) with _ | _
      · rw [allocEmuMem_some_valid m size addr hv]
        refine ⟨pageAlign_mod addr, rfl, ?_, rfl, hwfNew _ (pageAlign_mod addr)⟩
        intro r hr
        have hc : collidesWith (pageAlign addr) (pageAlignUp size) r = false := by
          by_contra hcc
          exact absurd (List.any_eq_true.mpr ⟨r, hr, eq_true_of_ne_false hcc⟩)
            (by simp [hv])
        exact not_overlaps_of_not_collides _ _ r (pageAlign_mod addr) hLmod (hwf r hr) hc
      · rw [allocEmuMem_some_invalid m size addr hv]
        exact ⟨findUnusedMemRegion_mod m, rfl,
          fun r hr => not_overlaps_of_findUnused m hwf _ r hr, rfl,
          hwfNew _ (findUnusedMemRegion_mod m)⟩

/-- A run of `allocEmuMem` calls with positive sizes preserves memory
well-formedness. -/
theorem allocRun_wf (m : EmuMem) (reqs : List (Nat × Option Nat))
    (hwf : m.Wf) (hreq : ∀ p ∈ reqs, 0 < p.1) : (allocRun m reqs).Wf := by
  induction reqs generalizing m with
  | nil => exact hwf
  | cons q rest ih =>
      simp only [allocRun]
      refine ih _ ?_ ?_
      · exact (allocEmuMem_step m q.1 q.2 hwf (hreq q (List.mem_cons_self q rest))).2.2.2.2
      · intro p hp
        exact hreq p (List.mem_cons_of_mem q hp)

/-- C1. For every sequence of `allocEmuMem` calls with positive sizes (with or
without a preferred address, in any interleaving), starting from a well-formed
memory, the region mapped by the next call is page-aligned (base and size) and
overlaps no region already mapped at the time of the call. -/
theorem allocEmuMem_pageAligned_no_overlap (m0 : EmuMem)
    (pre : List (Nat × Option Nat)) (size : Nat) (addr? : Option Nat)
    (hwf : m0.Wf) (hpre : ∀ p ∈ pre, 0 < p.1) (hsz : 0 < size) :
    (allocEmuMem (allocRun m0 pre) size addr?).base % PAGESIZE = 0 ∧
    (allocEmuMem (allocRun m0 pre) size addr?).allocSize % PAGESIZE = 0 ∧
    ∀ r ∈ (allocRun m0 pre).regions,
      ¬ Overlaps ⟨(allocEmuMem (allocRun m0 pre) size addr?).base,
                  (allocEmuMem (allocRun m0 pre) size addr?).allocSize⟩ r := by
  have hwf' := allocRun_wf m0 pre hwf hpre
  have h := allocEmuMem_step (allocRun m0 pre) size addr? hwf' hsz
  exact ⟨h.1, h.2.1 ▸ pageAlignUp_mod size, h.2.2.1⟩

/-- Witness for C1 at a concrete interleaving: one free allocation followed by
a preferred-address allocation on an initially empty memory. -/
theorem allocEmuMem_pageAligned_no_overlap_witness :
    (allocEmuMem (allocRun ⟨[], []⟩ [(1, none)]) 5 (some 0x11008)).base % PAGESIZE = 0 ∧
    (allocEmuMem (allocRun ⟨[], []⟩ [(1, none)]) 5 (some 0x11008)).allocSize % PAGESIZE = 0 ∧
    ∀ r ∈ (allocRun ⟨[], []⟩ [(1, none)]).regions,
      ¬ Overlaps ⟨(allocEmuMem (allocRun ⟨[], []⟩ [(1, none)]) 5 (some 0x11008)).base,
                  (allocEmuMem (allocRun ⟨[], []⟩ [(1, none)]) 5 (some 0x11008)).allocSize⟩ r :=
  allocEmuMem_pageAligned_no_overlap ⟨[], []⟩ [(1, none)] 5 (some 0x11008)
    (by intro r hr; cases hr) (by decide) (by decide)

/-- C7. A preferred-address `allocEmuMem` call whose page collides with an
existing region of a well-formed memory is rebased: the chosen base is
`_findUnusedMemRegion()` (an expression independent of the requested address),
it differs from the requested page base, and the returned address is the new
base plus the requested address's sub-page offset. -/
theorem allocEmuMem_collision_rebases (m : EmuMem) (size addr : Nat)
    (hwf : m.Wf) (haddr : addr < 2 ^ 64)
    (hcol : m.regions.any (collidesWith (pageAlign addr) (pageAlignUp size)) = true) :
    (allocEmuMem m size (some addr)).base = findUnusedMemRegion m ∧
    (allocEmuMem m size (some addr)).base ≠ pageAlign addr ∧
    (allocEmuMem m size (some addr)).addr =
      (allocEmuMem m size (some addr)).base + addr % PAGESIZE := by
  have hbase : pageAlign addr < findUnusedMemRegion m := by
    obtain ⟨r, hr, hcr⟩ := List.any_eq_true.mp hcol
    have hlast := findUnusedMemRegion_gt_last m r hr
    have hpos := (hwf r hr).2.2
    simp only [collidesWith, Bool.or_eq_true, Bool.and_eq_true, decide_eq_true_eq] at hcr
    unfold Region.last at hcr hlast
    omega
  have hoffs : addr - pageAlign addr = addr % PAGESIZE := by
    rw [pageAlign_eq_of_lt addr haddr]
    have := Nat.mod_le addr PAGESIZE
    omega
  rw [allocEmuMem_some_invalid m size addr hcol]
  refine ⟨rfl, ?_, ?_⟩
  · show findUnusedMemRegion m ≠ pageAlign addr
    omega
  · show findUnusedMemRegion m + (addr - pageAlign addr) =
      findUnusedMemRegion m + addr % PAGESIZE
    rw [hoffs]

/-- Witness for C7: requesting `0x20010` (page base `0x20000`, offset `0x10`)
while `[0x20000, 0x21000)` is already mapped rebases to `0x22000` and returns
`0x22010`. -/
theorem allocEmuMem_collision_rebases_witness :
    (allocEmuMem ⟨[⟨0x20000, 0x1000⟩], []⟩ 4 (some 0x20010)).base =
      findUnusedMemRegion ⟨[⟨0x20000, 0x1000⟩], []⟩ ∧
    (allocEmuMem ⟨[⟨0x20000, 0x1000⟩], []⟩ 4 (some 0x20010)).base ≠ pageAlign 0x20010 ∧
    (allocEmuMem ⟨[⟨0x20000, 0x1000⟩], []⟩ 4 (some 0x20010)).addr =
      (allocEmuMem ⟨[⟨0x20000, 0x1000⟩], []⟩ 4 (some 0x20010)).base + 0x20010 % PAGESIZE :=
  allocEmuMem_collision_rebases ⟨[⟨0x20000, 0x1000⟩], []⟩ 4 0x20010
    (by intro r hr; rcases List.mem_singleton.mp hr with rfl; exact ⟨by decide, by decide, by decide⟩)
    (by decide) (by unfold pageAlign pageAlignUp; decide)

/-- Source `_checkMemSize(size)`: truncate to `MAX_ALLOC_SIZE` when above it. -/
def checkMemSize (size : Nat) : Nat :=
  if size > MAX_ALLOC_SIZE then MAX_ALLOC_SIZE else size

/-- Source `_allocMem1Hook`: the runtime shim for `malloc`-like routines taking
the size as first argument; it truncates via `_checkMemSize` and maps fresh
memory via `allocEmuMem` (the `.addr` field is what the hook writes into the
emulator's return register).  The hook itself never fails: it is a total
function of the state. -/
def allocMem1Hook (m : EmuMem) (argv0 : Nat) : AllocResult :=
  allocEmuMem m (checkMemSize argv0) none

theorem pageAlignUp_le_of_le (v w : Nat) (hw : w % PAGESIZE = 0) (hvw : v ≤ w) :
    pageAlignUp v ≤ w := by
  unfold pageAlignUp PAGESIZE at *
  split <;> omega

/-- C4. A shim allocation request above `MAX_ALLOC_SIZE` is silently truncated
to `MAX_ALLOC_SIZE` (never fails), and for every request the mapped region is
no larger than the (already page-aligned) ceiling. -/
theorem allocMem1Hook_capped (m : EmuMem) (sz : Nat) (h : MAX_ALLOC_SIZE < sz) :
    (allocMem1Hook m sz).allocSize = MAX_ALLOC_SIZE ∧
    pageAlignUp MAX_ALLOC_SIZE = MAX_ALLOC_SIZE ∧
    ∀ sz', (allocMem1Hook m sz').allocSize ≤ MAX_ALLOC_SIZE := by
  have hup : pageAlignUp MAX_ALLOC_SIZE = MAX_ALLOC_SIZE := by
    unfold pageAlignUp
    decide
  refine ⟨?_, hup, ?_⟩
  · have hck : checkMemSize sz = MAX_ALLOC_SIZE := by
      unfold checkMemSize
      simp [h]
    simp only [allocMem1Hook, allocEmuMem_none, hck]
    exact hup
  · intro sz'
    have hck : checkMemSize sz' ≤ MAX_ALLOC_SIZE := by
      unfold checkMemSize
      split <;> omega
    simp only [allocMem1Hook, allocEmuMem_none]
    exact pageAlignUp_le_of_le _ _ (by decide) hck

/-- Witness for C4 at the spec's example size `2 ^ 40`. -/
theorem allocMem1Hook_capped_witness :
    (allocMem1Hook ⟨[], []⟩ (2 ^ 40)).allocSize = MAX_ALLOC_SIZE ∧
    pageAlignUp MAX_ALLOC_SIZE = MAX_ALLOC_SIZE ∧
    ∀ sz', (allocMem1Hook ⟨[], []⟩ sz').allocSize ≤ MAX_ALLOC_SIZE :=
  allocMem1Hook_capped ⟨[], []⟩ (2 ^ 40) (by decide)

/-! Runtime shim layer: pointer validity, region lookup and the copy shims. -/

/-- Source `isValidEmuPtr`: scan `uc.mem_regions()` for
`ptr >= region[0] and ptr < region[1]` (note: `region[1]` is the inclusive
end). -/
def isValidEmuPtr (m : EmuMem) (ptr : Nat) : Bool :=
  m.regions.any (fun r => decide (ptr ≥ r.base) && decide (ptr < r.last))

/-- Source `getEmuMemRegion`: the first region with
`addr >= region[0] and addr < region[1]`, returned as the pair
`(region[0], region[1] + 1)` (exclusive end). -/
def getEmuMemRegion (m : EmuMem) (addr : Nat) : Option (Nat × Nat) :=
  (m.regions.find? (fun r => decide (addr ≥ r.base) && decide (addr < r.last))).map
    (fun r => (r.base, r.last + 1))

/-- Failure value the string shims write to the return register:
`0xffffffffffffffff` when `size_pointer == 8`, else `0xffffffff`. -/
def failValue (ptrSize : Nat) : Nat :=
  if ptrSize = 8 then 0xffffffffffffffff else 0xffffffff

/-- Outcome of one shim call: final memory, the list of performed
`uc.mem_write` operations as `(address, byte count)` events, and the value
written into the return register. -/
structure ShimResult where
  mem : EmuMem
  writes : List (Nat × Nat)
  ret : Nat
deriving Repr, DecidableEq

/-- Shared shape of the two copy shims: look the destination pointer up; if it
has no region, allocate `opSize` bytes and retarget the destination
(`argv[0] = dstRegion[0]`).  A `none` result models a Python exception
escaping the lookup (it is caught in `_handleApiHooks`, which then performs no
write at all). -/
def resolveDst (m : EmuMem) (argv0 opSize : Nat) :
    Option (EmuMem × (Nat × Nat) × Nat) :=
  match getEmuMemRegion m argv0 with
  | some r => some (m, r, argv0)
  | none =>
      let res := allocEmuMem m opSize none
      match getEmuMemRegion res.mem res.addr with
      | some r => some (res.mem, r, r.1)
      | none => none

/-- Source `_strcpyHook`.  `srcLen` is the length of the null-terminated
string `getEmuString(argv[1])` read from emulated memory (an input of the
model); the buffer written is `src = getEmuString(argv[1]) + "\x00"`, i.e.
`srcLen + 1` bytes.  On overflow of the destination region the write is
skipped and the native failure value is returned. -/
def strcpyHook (m : EmuMem) (argv0 argv1 srcLen ptrSize : Nat) :
    Option ShimResult :=
  if isValidEmuPtr m argv1 then
    let srcN := srcLen + 1
    match resolveDst m argv0 srcN with
    | none => none
    | some (m1, dstRegion, a0) =>
        if srcN ≤ dstRegion.2 - a0 then
          some ⟨m1, [(a0, srcN)], a0⟩
        else
          some ⟨m1, [], failValue ptrSize⟩
  else
    some ⟨m, [], failValue ptrSize⟩

/-- Source `_memcpyHook`: truncate the size via `_checkMemSize`, look up the
source region (before any destination allocation, as in the source), resolve
the destination (allocating `copySize` bytes if absent), and copy only when
the size fits both the source and the destination region; otherwise skip the
write.  The returned value is always the (possibly retargeted) destination
pointer. -/
def memcpyHook (m : EmuMem) (argv0 argv1 argv2 : Nat) : Option ShimResult :=
  let copySize := checkMemSize argv2
  let srcRegion := getEmuMemRegion m argv1
  match resolveDst m argv0 copySize with
  | none => none
  | some (m1, dstRegion, a0) =>
      match srcRegion with
      | none => some ⟨m1, [], a0⟩
      | some sr =>
          if copySize ≤ sr.2 - argv1 ∧ copySize ≤ dstRegion.2 - a0 then
            some ⟨m1, [(a0, copySize)], a0⟩
          else
            some ⟨m1, [], a0⟩

/-- A write event stays inside one mapped region of `m`. -/
def WriteInBounds (m : EmuMem) (w : Nat × Nat) : Prop :=
  ∃ r ∈ m.regions, r.base ≤ w.1 ∧ w.1 + w.2 ≤ r.base + r.size

theorem find?_append_none (p : α → Bool) (l₁ l₂ : List α)
    (h : ∀ x ∈ l₁, p x = false) :
    List.find? p (l₁ ++ l₂) = List.find? p l₂ := by
  induction l₁ with
  | nil => rfl
  | cons x xs ih =>
      have hx := h x (List.mem_cons_self x xs)
      simp only [List.cons_append, List.find?_cons, hx]
      exact ih fun y hy => h y (List.mem_cons_of_mem x hy)

theorem pagesize_le_pageAlignUp (v : Nat) (hv : 0 < v) :
    PAGESIZE ≤ pageAlignUp v := by
  unfold pageAlignUp PAGESIZE at *
  split <;> omega

theorem getEmuMemRegion_spec (m : EmuMem) (x : Nat) (d : Nat × Nat)
    (h : getEmuMemRegion m x = some d) :
    ∃ r ∈ m.regions, d = (r.base, r.last + 1) ∧ r.base ≤ x ∧ x < r.last := by
  unfold getEmuMemRegion at h
  cases hf : m.regions.find? (fun r => decide (x ≥ r.base) && decide (x < r.last)) with
  | none => rw [hf] at h; cases h
  | some r =>
      rw [hf] at h
      simp only [Option.map_some'] at h
      have hp := List.find?_some hf
      have hm := List.mem_of_find?_eq_some hf
      simp only [Bool.and_eq_true, decide_eq_true_eq, ge_iff_le] at hp
      injection h with h2
      exact ⟨r, hm, h2.symm, hp.1, hp.2⟩

theorem getEmuMemRegion_none (m : EmuMem) (x : Nat)
    (h : getEmuMemRegion m x = none) :
    ∀ r ∈ m.regions, ¬ (r.base ≤ x ∧ x < r.last) := by
  unfold getEmuMemRegion at h
  intro r hr hc
  rcases Option.map_eq_none'.mp h with hf
  have := List.find?_eq_none.mp hf r hr
  simp only [Bool.and_eq_true, decide_eq_true_eq, ge_iff_le, not_and] at this
  exact absurd (this hc.1) (by simpa using hc.2)

/-- Unfolding of `resolveDst` when the first lookup misses, with the one-shot
allocation `res` inlined. -/
theorem resolveDst_none_eq (m : EmuMem) (argv0 opSize : Nat)
    (hmiss : getEmuMemRegion m argv0 = none) :
    resolveDst m argv0 opSize =
      match getEmuMemRegion
          ⟨m.regions ++ [⟨findUnusedMemRegion m, pageAlignUp opSize⟩], m.segEnds⟩
          (findUnusedMemRegion m) with
      | some r => some ((⟨m.regions ++ [⟨findUnusedMemRegion m, pageAlignUp opSize⟩],
                         m.segEnds⟩ : EmuMem), r, r.1)
      | none => none := by
  unfold resolveDst
  rw [hmiss]
  simp only [allocEmuMem_none]

/-- On a missing destination, `resolveDst` allocates fresh memory and the new
region list is the old one with the fresh region appended. -/
theorem resolveDst_missing_regions (m : EmuMem) (argv0 opSize : Nat)
    (m1 : EmuMem) (d : Nat × Nat) (a0 : Nat)
    (hmiss : getEmuMemRegion m argv0 = none)
    (h : resolveDst m argv0 opSize = some (m1, d, a0)) :
    m1.regions = m.regions ++ [⟨findUnusedMemRegion m, pageAlignUp opSize⟩] := by
  rw [resolveDst_none_eq m argv0 opSize hmiss] at h
  cases hg : getEmuMemRegion
      ⟨m.regions ++ [⟨findUnusedMemRegion m, pageAlignUp opSize⟩], m.segEnds⟩
      (findUnusedMemRegion m) with
  | none => rw [hg] at h; cases h
  | some r =>
      rw [hg] at h
      injection h with h'
      simp only [Prod.mk.injEq] at h'
      rw [← h'.1]

/-- The destination triple produced by `resolveDst` sits inside a region of
the (possibly grown) memory: `d` is a region of `m1` and `a0` points into its
half-open range. -/
theorem resolveDst_bounds (m : EmuMem) (argv0 opSize : Nat) (m1 : EmuMem)
    (d : Nat × Nat) (a0 : Nat)
    (h : resolveDst m argv0 opSize = some (m1, d, a0)) :
    (∃ x, getEmuMemRegion m1 x = some d) ∧ d.1 ≤ a0 ∧ a0 < d.2 := by
  cases hm0 : getEmuMemRegion m argv0 with
  | some r =>
      unfold resolveDst at h
      rw [hm0] at h
      injection h with h'
      simp only [Prod.mk.injEq] at h'
      obtain ⟨rfl, rfl, rfl⟩ := h'
      obtain ⟨r', -, hd, hx1, hx2⟩ := getEmuMemRegion_spec m argv0 _ hm0
      subst hd
      exact ⟨⟨argv0, hm0⟩, hx1, by simpa using Nat.lt_succ_of_lt hx2⟩
  | none =>
      rw [resolveDst_none_eq m argv0 opSize hm0] at h
      cases hg : getEmuMemRegion
          ⟨m.regions ++ [⟨findUnusedMemRegion m, pageAlignUp opSize⟩], m.segEnds⟩
          (findUnusedMemRegion m) with
      | none => rw [hg] at h; cases h
      | some r =>
          rw [hg] at h
          injection h with h'
          simp only [Prod.mk.injEq] at h'
          obtain ⟨rfl, rfl, rfl⟩ := h'
          obtain ⟨r', -, hd, hx1, hx2⟩ := getEmuMemRegion_spec _ _ _ hg
          subst hd
          refine ⟨⟨findUnusedMemRegion m, hg⟩, Nat.le_refl _, ?_⟩
          simp only
          omega

/-- With a positive operation size `resolveDst` never raises: the fresh
allocation is at least one page, so the retry lookup finds the new region. -/
theorem resolveDst_isSome (m : EmuMem) (argv0 opSize : Nat) (hpos : 0 < opSize) :
    (resolveDst m argv0 opSize).isSome = true := by
  cases hm0 : getEmuMemRegion m argv0 with
  | some r =>
      unfold resolveDst
      rw [hm0]
      rfl
  | none =>
      rw [resolveDst_none_eq m argv0 opSize hm0]
      have hL : PAGESIZE ≤ pageAlignUp opSize := pagesize_le_pageAlignUp opSize hpos
      cases hg : getEmuMemRegion
          ⟨m.regions ++ [⟨findUnusedMemRegion m, pageAlignUp opSize⟩], m.segEnds⟩
          (findUnusedMemRegion m) with
      | some r => rfl
      | none =>
          exfalso
          have hnone := getEmuMemRegion_none _ _ hg
            ⟨findUnusedMemRegion m, pageAlignUp opSize⟩ (by simp)
          apply hnone
          refine ⟨Nat.le_refl _, ?_⟩
          show findUnusedMemRegion m <
            Region.last ⟨findUnusedMemRegion m, pageAlignUp opSize⟩
          unfold Region.last
          simp only
          have hp2 : (2 : Nat) ≤ PAGESIZE := by decide
          omega

theorem resolveDst_found (m : EmuMem) (argv0 opSize : Nat) (d : Nat × Nat)
    (h : getEmuMemRegion m argv0 = some d) :
    resolveDst m argv0 opSize = some (m, d, argv0) := by
  unfold resolveDst
  rw [h]

/-- Any write of `n` bytes at the destination returned by `resolveDst` with
`n` at most the remaining room `dstRegion[1] - argv[0]` stays inside a mapped
region. -/
theorem resolveDst_write_ok (m : EmuMem) (argv0 opSize : Nat) (m1 : EmuMem)
    (d : Nat × Nat) (a0 n : Nat)
    (h : resolveDst m argv0 opSize = some (m1, d, a0)) (hn : n ≤ d.2 - a0) :
    WriteInBounds m1 (a0, n) := by
  obtain ⟨⟨x, hx⟩, h1, h2⟩ := resolveDst_bounds m argv0 opSize m1 d a0 h
  obtain ⟨r, hr, hd, hc1, hc2⟩ := getEmuMemRegion_spec m1 x d hx
  have e1 : d.1 = r.base := by rw [hd]
  have e2 : d.2 = r.last + 1 := by rw [hd]
  rw [e1] at h1
  rw [e2] at h2 hn
  refine ⟨r, hr, h1, ?_⟩
  unfold Region.last at hn h2 hc2
  simp only
  omega

theorem checkMemSize_pos (v : Nat) (hv : 0 < v) : 0 < checkMemSize v := by
  unfold checkMemSize MAX_ALLOC_SIZE
  split <;> omega

/-- C5. The copy shims never write outside the destination region's mapped
bounds: every write event of `_strcpyHook` and `_memcpyHook` lies inside a
mapped region of the resulting memory; when the destination region does not
exist a region sized to the operation is allocated before writing (and the
hook still succeeds); and when the requested length overflows the destination
region's bound the write is skipped entirely and the routine's failure value
is returned (`-1` for `strcpy`, the destination pointer — `memcpy`'s only
return convention — for `memcpy`). -/
theorem copyShims_respect_dst_bounds (m : EmuMem)
    (argv0 argv1 argv2 srcLen ptrSize : Nat) :
    (∀ out, strcpyHook m argv0 argv1 srcLen ptrSize = some out →
       ∀ w ∈ out.writes, WriteInBounds out.mem w) ∧
    (strcpyHook m argv0 argv1 srcLen ptrSize).isSome = true ∧
    (∀ out, isValidEmuPtr m argv1 = true → getEmuMemRegion m argv0 = none →
       strcpyHook m argv0 argv1 srcLen ptrSize = some out →
       out.mem.regions =
         m.regions ++ [⟨findUnusedMemRegion m, pageAlignUp (srcLen + 1)⟩]) ∧
    (∀ d, isValidEmuPtr m argv1 = true → getEmuMemRegion m argv0 = some d →
       d.2 - argv0 < srcLen + 1 →
       strcpyHook m argv0 argv1 srcLen ptrSize =
         some ⟨m, [], failValue ptrSize⟩) ∧
    (∀ out, memcpyHook m argv0 argv1 argv2 = some out →
       ∀ w ∈ out.writes, WriteInBounds out.mem w) ∧
    (0 < argv2 → (memcpyHook m argv0 argv1 argv2).isSome = true) ∧
    (∀ d sr, getEmuMemRegion m argv0 = some d →
       getEmuMemRegion m argv1 = some sr →
       d.2 - argv0 < checkMemSize argv2 →
       memcpyHook m argv0 argv1 argv2 = some ⟨m, [], argv0⟩) ∧
    (∀ out, getEmuMemRegion m argv0 = none →
       memcpyHook m argv0 argv1 argv2 = some out →
       out.mem.regions =
         m.regions ++ [⟨findUnusedMemRegion m, pageAlignUp (checkMemSize argv2)⟩]) := by
  refine ⟨?_, ?_, ?_, ?_, ?_, ?_, ?_, ?_⟩
  · -- strcpy writes stay in bounds
    intro out hout w hw
    unfold strcpyHook at hout
    by_cases hv : isValidEmuPtr m argv1 = true
    · rw [if_pos hv] at hout
      cases hrd : resolveDst m argv0 (srcLen + 1) with
      | none => simp only [hrd] at hout; cases hout
      | some trip =>
          obtain ⟨m1, d, a0⟩ := trip
          simp only [hrd] at hout
          by_cases hc : srcLen + 1 ≤ d.2 - a0
          · rw [if_pos hc] at hout
            injection hout with he
            subst he
            simp only [List.mem_singleton] at hw
            subst hw
            exact resolveDst_write_ok m argv0 (srcLen + 1) m1 d a0 (srcLen + 1) hrd hc
          · rw [if_neg hc] at hout
            injection hout with he
            subst he
            simp at hw
    · rw [if_neg hv] at hout
      injection hout with he
      subst he
      simp at hw
  · -- strcpy never raises
    by_cases hv : isValidEmuPtr m argv1 = true
    · unfold strcpyHook
      rw [if_pos hv]
      cases hrd : resolveDst m argv0 (srcLen + 1) with
      | none =>
          have hs := resolveDst_isSome m argv0 (srcLen + 1) (Nat.succ_pos srcLen)
          rw [hrd] at hs
          simp at hs
      | some trip =>
          obtain ⟨m1, d, a0⟩ := trip
          simp only [hrd]
          split <;> rfl
    · unfold strcpyHook
      rw [if_neg hv]
      rfl
  · -- strcpy allocates a region sized to the operation when dst is unmapped
    intro out hv hmiss hout
    unfold strcpyHook at hout
    rw [if_pos hv] at hout
    cases hrd : resolveDst m argv0 (srcLen + 1) with
    | none => simp only [hrd] at hout; cases hout
    | some trip =>
        obtain ⟨m1, d, a0⟩ := trip
        simp only [hrd] at hout
        have hreg := resolveDst_missing_regions m argv0 (srcLen + 1) m1 d a0 hmiss hrd
        by_cases hc : srcLen + 1 ≤ d.2 - a0
        · rw [if_pos hc] at hout
          injection hout with he
          subst he
          exact hreg
        · rw [if_neg hc] at hout
          injection hout with he
          subst he
          exact hreg
  · -- strcpy aborts the write and returns the failure value on overflow
    intro d hv hdst hover
    unfold strcpyHook
    rw [if_pos hv]
    simp only [resolveDst_found m argv0 (srcLen + 1) d hdst]
    rw [if_neg (by omega)]
  · -- memcpy writes stay in bounds
    intro out hout w hw
    unfold memcpyHook at hout
    cases hrd : resolveDst m argv0 (checkMemSize argv2) with
    | none => simp only [hrd] at hout; cases hout
    | some trip =>
        obtain ⟨m1, d, a0⟩ := trip
        simp only [hrd] at hout
        cases hsr : getEmuMemRegion m argv1 with
        | none =>
            simp only [hsr] at hout
            injection hout with he
            subst he
            simp at hw
        | some sr =>
            simp only [hsr] at hout
            by_cases hc : checkMemSize argv2 ≤ sr.2 - argv1 ∧
                checkMemSize argv2 ≤ d.2 - a0
            · rw [if_pos hc] at hout
              injection hout with he
              subst he
              simp only [List.mem_singleton] at hw
              subst hw
              exact resolveDst_write_ok m argv0 (checkMemSize argv2) m1 d a0
                (checkMemSize argv2) hrd hc.2
            · rw [if_neg hc] at hout
              injection hout with he
              subst he
              simp at hw
  · -- memcpy never raises for a positive size
    intro hpos
    unfold memcpyHook
    cases hrd : resolveDst m argv0 (checkMemSize argv2) with
    | none =>
        have hs := resolveDst_isSome m argv0 (checkMemSize argv2)
          (checkMemSize_pos argv2 hpos)
        rw [hrd] at hs
        simp at hs
    | some trip =>
        obtain ⟨m1, d, a0⟩ := trip
        simp only [hrd]
        cases hsr : getEmuMemRegion m argv1 with
        | none => simp only [hsr]; rfl
        | some sr => simp only [hsr]; split <;> rfl
  · -- memcpy skips the write on overflow and returns the dst pointer
    intro d sr hdst hsrc hover
    unfold memcpyHook
    simp only [resolveDst_found m argv0 (checkMemSize argv2) d hdst, hsrc]
    rw [if_neg (fun hcc => absurd hcc.2 (by omega))]
  · -- memcpy allocates a region sized to the operation when dst is unmapped
    intro out hmiss hout
    unfold memcpyHook at hout
    cases hrd : resolveDst m argv0 (checkMemSize argv2) with
    | none => simp only [hrd] at hout; cases hout
    | some trip =>
        obtain ⟨m1, d, a0⟩ := trip
        simp only [hrd] at hout
        have hreg := resolveDst_missing_regions m argv0 (checkMemSize argv2) m1 d a0
          hmiss hrd
        cases hsr : getEmuMemRegion m argv1 with
        | none =>
            simp only [hsr] at hout
            injection hout with he
            subst he
            exact hreg
        | some sr =>
            simp only [hsr] at hout
            split at hout <;> (injection hout with he; subst he; exact hreg)

/-- Witness for C5: copying a 0x1001-byte string into the one-page region
`[0x1000, 0x2000)` aborts the write and returns the failure value. -/
theorem copyShims_respect_dst_bounds_witness :
    strcpyHook ⟨[⟨0x1000, 0x1000⟩], []⟩ 0x1000 0x1000 0x1000 8 =
      some ⟨⟨[⟨0x1000, 0x1000⟩], []⟩, [], failValue 8⟩ :=
  (copyShims_respect_dst_bounds ⟨[⟨0x1000, 0x1000⟩], []⟩ 0x1000 0x1000 0 0x1000
    8).2.2.2.1 (0x1000, 0x2000) (by decide) (by decide) (by decide)

/-! Lazy page mapping on invalid memory access (`_hookMemInvalid`). -/

/-- Source `address & self.pageMask`: the page mask is
`0xfffffffffffff000` on 64-bit and `0xfffff000` on 32-bit architectures,
i.e. it truncates to `maskBits` bits and clears the low 12; we write that
arithmetically with `maskBits` a parameter. -/
@[irreducible] def maskAlign (maskBits addr : Nat) : Nat :=
  addr % 2 ^ maskBits - addr % 2 ^ maskBits % PAGESIZE

/-- Success condition of `uc.mem_map(base, size)`: page-aligned base and size,
positive size, and no overlap with an already mapped region (unicorn raises
`UcError` otherwise). -/
def memMapOk (m : EmuMem) (base size : Nat) : Bool :=
  decide (base % PAGESIZE = 0) && decide (size % PAGESIZE = 0) && decide (0 < size) &&
  !(m.regions.any fun r => decide (base < r.base + r.size) && decide (r.base < base + size))

/-- Outcome of the invalid-memory hook: final memory, final program counter,
zero-fill writes performed, and the value returned to unicorn (`True` resumes
emulation). -/
structure MemFaultResult where
  mem : EmuMem
  pc : Nat
  zeroWrites : List (Nat × Nat)
  resume : Bool
deriving Repr, DecidableEq

/-- Source `_hookMemInvalid`: try to map one zero-filled page at
`address & pageMask` and resume; if `uc.mem_map` raises, instead set the
program counter to `currAddr + currAddrSize` (skip the faulting instruction).
The hook always returns `True`. -/
def hookMemInvalid (maskBits : Nat) (m : EmuMem)
    (address currAddr currAddrSize pc : Nat) : MemFaultResult :=
  if memMapOk m (maskAlign maskBits address) PAGESIZE then
    ⟨⟨m.regions ++ [⟨maskAlign maskBits address, PAGESIZE⟩], m.segEnds⟩, pc,
     [(maskAlign maskBits address, PAGESIZE)], true⟩
  else
    ⟨m, currAddr + currAddrSize, [], true⟩

/-- The address lies inside some mapped region. -/
def Mapped (m : EmuMem) (a : Nat) : Prop :=
  ∃ r ∈ m.regions, r.base ≤ a ∧ a < r.base + r.size

theorem maskAlign_mod (maskBits a : Nat) : maskAlign maskBits a % PAGESIZE = 0 := by
  unfold maskAlign PAGESIZE
  omega

theorem maskAlign_eq_of_lt (maskBits a : Nat) (h : a < 2 ^ maskBits) :
    maskAlign maskBits a = a - a % PAGESIZE := by
  unfold maskAlign
  rw [Nat.mod_eq_of_lt h]

/-- C6. On an unmapped-memory fault the hook returns `True` (the run is never
failed); on a well-formed memory where the faulting address is genuinely
unmapped the `mem_map` call succeeds, and the hook maps exactly one zero-filled
page at the faulting address's page boundary, leaving the program counter
untouched; only when the mapping call itself fails does it instead skip the
faulting instruction by setting the program counter to
`currAddr + currAddrSize`. -/
theorem hookMemInvalid_maps_page_or_skips (maskBits : Nat) (m : EmuMem)
    (address currAddr currAddrSize pc : Nat)
    (hwf : m.Wf) (haddr : address < 2 ^ maskBits) (hunmapped : ¬ Mapped m address) :
    (∀ m' : EmuMem,
       (hookMemInvalid maskBits m' address currAddr currAddrSize pc).resume = true) ∧
    memMapOk m (maskAlign maskBits address) PAGESIZE = true ∧
    hookMemInvalid maskBits m address currAddr currAddrSize pc =
      ⟨⟨m.regions ++ [⟨maskAlign maskBits address, PAGESIZE⟩], m.segEnds⟩, pc,
       [(maskAlign maskBits address, PAGESIZE)], true⟩ ∧
    (maskAlign maskBits address ≤ address ∧
     address < maskAlign maskBits address + PAGESIZE) ∧
    (∀ m' : EmuMem, memMapOk m' (maskAlign maskBits address) PAGESIZE = false →
       hookMemInvalid maskBits m' address currAddr currAddrSize pc =
         ⟨m', currAddr + currAddrSize, [], true⟩) := by
  have hpb := maskAlign_eq_of_lt maskBits address haddr
  have hmod := maskAlign_mod maskBits address
  have hok : memMapOk m (maskAlign maskBits address) PAGESIZE = true := by
    unfold memMapOk
    simp only [Bool.and_eq_true, decide_eq_true_eq, Bool.not_eq_true',
      List.any_eq_false, Bool.and_eq_false_iff, decide_eq_false_iff_not, not_lt]
    refine ⟨⟨⟨hmod, by decide⟩, by decide⟩, ?_⟩
    intro r hr
    obtain ⟨hb, hs, hpos⟩ := hwf r hr
    intro hcon
    obtain ⟨hc1, hc2⟩ := hcon
    apply hunmapped
    have hml : address % PAGESIZE < PAGESIZE := Nat.mod_lt _ (by decide)
    have hle := Nat.mod_le address PAGESIZE
    refine ⟨r, hr, ?_, ?_⟩
    · unfold PAGESIZE at hb hmod hml hle hpb hc2
      omega
    · unfold PAGESIZE at hb hs hmod hml hle hpb
      omega
  refine ⟨?_, hok, ?_, ?_, ?_⟩
  · intro m'
    unfold hookMemInvalid
    split <;> rfl
  · unfold hookMemInvalid
    rw [if_pos hok]
  · have hml : address % PAGESIZE < PAGESIZE := Nat.mod_lt _ (by decide)
    have := Nat.mod_le address PAGESIZE
    omega
  · intro m' hfail
    unfold hookMemInvalid
    rw [if_neg (by simp [hfail])]

/-- Witness for C6 on an empty memory: a fault at `0x1234` is recovered by
mapping its page and resuming. -/
theorem hookMemInvalid_maps_page_or_skips_witness :
    (hookMemInvalid 64 ⟨[], []⟩ 0x1234 7 4 99).resume = true ∧
    memMapOk ⟨[], []⟩ (maskAlign 64 0x1234) PAGESIZE = true :=
  ⟨(hookMemInvalid_maps_page_or_skips 64 ⟨[], []⟩ 0x1234 7 4 99
      (fun r hr => absurd hr (List.not_mem_nil r)) (by decide)
      (by intro hmap; obtain ⟨r, hr, -⟩ := hmap; exact absurd hr (List.not_mem_nil r))).1
    ⟨[], []⟩,
   (hookMemInvalid_maps_page_or_skips 64 ⟨[], []⟩ 0x1234 7 4 99
      (fun r hr => absurd hr (List.not_mem_nil r)) (by decide)
      (by intro hmap; obtain ⟨r, hr, -⟩ := hmap; exact absurd hr (List.not_mem_nil r))).2.1⟩

/-! Call-target name normalization in `_handleApiHooks`. -/

/-- Source `re.sub(r"_[\d]+$", "", funcName)`: drop a trailing run of ASCII
digits together with the underscore immediately before it (the anchored
pattern has at most one match, consuming the maximal digit run at the end). -/
def stripNumSuffix (l : List Char) : List Char :=
  let r := l.reverse
  let ds := r.takeWhile Char.isDigit
  if ds.isEmpty then l
  else
    match r.drop ds.length with
    | '_' :: rest => rest.reverse
    | _ => l

/-- Source `re.sub(r"_l$", "", funcName)`: drop a trailing `_l`. -/
def stripLSuffix (l : List Char) : List Char :=
  match l.reverse with
  | 'l' :: '_' :: rest => rest.reverse
  | _ => l

/-- Source `if funcName[:2] == "j_": funcName = funcName[2:]`. -/
def stripJPrefix (l : List Char) : List Char :=
  match l with
  | 'j' :: '_' :: rest => rest
  | _ => l

/-- Source `re.sub(r"^_+", "", funcName)`: drop all leading underscores. -/
def stripUnderscores (l : List Char) : List Char :=
  l.dropWhile (fun c => c == '_')

/-- The name normalization of `_handleApiHooks`, in source order: numeric
suffix, `_l` locale suffix, `j_` thunk prefix, leading underscores.  The
normalized name is the key looked up in `self.apiHooks`. -/
def normalizeFuncName (s : String) : String :=
  ⟨stripUnderscores (stripJPrefix (stripLSuffix (stripNumSuffix s.data)))⟩

theorem takeWhile_append_cons (p : α → Bool) (l₁ : List α) (x : α) (l₂ : List α)
    (h1 : ∀ a ∈ l₁, p a = true) (hx : p x = false) :
    (l₁ ++ x :: l₂).takeWhile p = l₁ := by
  induction l₁ with
  | nil => simp [List.takeWhile, hx]
  | cons y ys ih =>
      have hy := h1 y (List.mem_cons_self y ys)
      simp only [List.cons_append, List.takeWhile, hy, List.append_eq]
      rw [ih fun a ha => h1 a (List.mem_cons_of_mem y ha)]

/-- C8. The shim name normalization maps `_strcpy_0`, `j_strcpy` and `strcpy`
to the same key `strcpy` (so all three resolve to the same registered API
hook); and in general it strips a trailing `_<digits>` suffix, a trailing `_l`
suffix, a leading `j_` prefix, and leading underscores. -/
theorem normalizeFuncName_strcpy_variants :
    normalizeFuncName "_strcpy_0" = "strcpy" ∧
    normalizeFuncName "j_strcpy" = "strcpy" ∧
    normalizeFuncName "strcpy" = "strcpy" ∧
    (∀ (s ds : List Char), ds ≠ [] → (∀ c ∈ ds, c.isDigit = true) →
       stripNumSuffix (s ++ '_' :: ds) = s) ∧
    (∀ s : List Char, stripLSuffix (s ++ ['_', 'l']) = s) ∧
    (∀ s : List Char, stripJPrefix ('j' :: '_' :: s) = s) ∧
    (∀ (n : Nat) (s : List Char), s.head? ≠ some '_' →
       stripUnderscores (List.replicate n '_' ++ s) = s) := by
  refine ⟨by decide, by decide, by decide, ?_, ?_, ?_, ?_⟩
  · intro s ds hne hds
    have hrev : (s ++ '_' :: ds).reverse = ds.reverse ++ '_' :: s.reverse := by
      simp
    have htw : (ds.reverse ++ '_' :: s.reverse).takeWhile Char.isDigit =
        ds.reverse := by
      refine takeWhile_append_cons _ _ _ _ ?_ (by decide)
      intro a ha
      exact hds a (List.mem_reverse.mp ha)
    have hemp : ds.reverse.isEmpty = false := by
      cases hd : ds.reverse with
      | nil => exact absurd (List.reverse_eq_nil_iff.mp hd) hne
      | cons a t => rfl
    simp only [stripNumSuffix, hrev, htw, hemp, Bool.false_eq_true, if_false]
    rw [List.drop_left]
    simp
  · intro s
    unfold stripLSuffix
    simp
  · intro s
    rfl
  · intro n s hs
    unfold stripUnderscores
    induction n with
    | zero =>
        simp only [List.replicate, List.nil_append]
        cases s with
        | nil => rfl
        | cons c t =>
            simp only [List.head?] at hs
            have hc : (c == '_') = false := by
              cases hcc : c == '_'
              · rfl
              · exact absurd (congrArg some (eq_of_beq hcc)) hs
            simp [List.dropWhile, hc]
    | succ k ih =>
        simp only [List.replicate, List.cons_append, List.dropWhile]
        exact ih

/-- Witness for C8: the general suffix rule applied to `strcpy` and digit `0`
yields `strcpy`. -/
theorem normalizeFuncName_strcpy_variants_witness :
    stripNumSuffix ("strcpy".data ++ '_' :: ['0']) = "strcpy".data :=
  normalizeFuncName_strcpy_variants.2.2.2.1 "strcpy".data ['0'] (by decide)
    (by decide)

/-! CFG path explorer: `_explore`, `getPaths`, `getPath`. -/

/-- IDA basic-block terminal classification (`idaapi.fcb_*`). -/
inductive BBType where
  | normal
  | indjump
  | ret
  | cndret
  | noret
  | enoret
  | externBlock
  | err
deriving Repr, DecidableEq

/-- One basic block of `idaapi.FlowChart`: id, address range
`[start_ea, end_ea)`, type, and successor block ids in flowchart order. -/
structure BB where
  id : Nat
  startEa : Nat
  endEa : Nat
  btype : BBType
  succs : List Nat
deriving Repr, DecidableEq

/-- Source `getBlockByVA` (via `getBlockIdByVA`): the block whose range
contains `targetVA`. -/
def getBlockByVA (fc : List BB) (va : Nat) : Option BB :=
  fc.find? (fun bb => decide (va ≥ bb.startEa) && decide (va < bb.endEa))

/-- Source `getStartBB`: the block whose `start_ea` is the function start. -/
def getStartBB (fc : List BB) (funcStartEa : Nat) : Option BB :=
  fc.find? (fun bb => bb.startEa == funcStartEa)

/-- The blocks yielded by `bb.succs()`, resolved from the flowchart by id. -/
def succBlocks (fc : List BB) (bb : BB) : List BB :=
  bb.succs.filterMap (fun i => fc.find? (fun b => b.id == i))

/-- Source `isTerminatingBB`: a return / no-return block, an indirect jump
with no successors, or any successor being an external block. -/
def isTerminatingBB (fc : List BB) (bb : BB) : Bool :=
  bb.btype == BBType.ret || bb.btype == BBType.noret ||
  (bb.btype == BBType.indjump && (succBlocks fc bb).isEmpty) ||
  (succBlocks fc bb).any (fun b => b.btype == BBType.externBlock)

/-- The mutable exploration state of `_explore`.  The source keeps
`self.explorePaths` (a list of paths) and `self.explorePathIdx`; the index
always points at the last list (it starts at `0` with one list, and the only
mutations append one list and increment the index together), so we model
`explorePaths = completed ++ [current]` and `explorePathIdx =
completed.length`. -/
structure ExploreState where
  completed : List (List Nat)
  current : List Nat
deriving Repr, DecidableEq

/-- The `for w in start_bb.succs()` loop of `_explore`: run `step` on each
successor in order, returning as soon as one reports the target found. -/
def exploreSuccs (step : BB → ExploreState → Bool × ExploreState) :
    List BB → ExploreState → Bool × ExploreState
  | [], s => (false, s)
  | b :: rest, s =>
      match step b s with
      | (true, s1) => (true, s1)
      | (false, s1) => exploreSuccs step rest s1

/-- Source `_explore(start_bb, end_bb)`, with explicit state and fuel (the
source recursion terminates because the current path never repeats a block;
every claim below is proved for every fuel).  The branches, in source order:
target found (append and report its index, i.e. the current path); loop
(snapshot the current path as completed, continue on a copy); append the
block; terminating block (snapshot, pop the block from the copy); recurse
into the successors, backtracking by popping on exhaustion. -/
def explore (fc : List BB) (endBB : Option Nat) :
    Nat → BB → ExploreState → Bool × ExploreState
  | 0, _, s => (false, s)
  | fuel + 1, bb, s =>
      if endBB = some bb.id then
        (true, ⟨s.completed, s.current ++ [bb.id]⟩)
      else if bb.id ∈ s.current then
        (false, ⟨s.completed ++ [s.current], s.current⟩)
      else
        let s1 : ExploreState := ⟨s.completed, s.current ++ [bb.id]⟩
        if isTerminatingBB fc bb then
          (false, ⟨s1.completed ++ [s1.current], s1.current.dropLast⟩)
        else
          match exploreSuccs (explore fc endBB fuel) (succBlocks fc bb) s1 with
          | (true, s2) => (true, s2)
          | (false, s2) => (false, ⟨s2.completed, s2.current.dropLast⟩)

/-- Source `getPaths(targetVA, maxPaths)` for an uncached function (the
`self.paths` cache only replays the list computed here for the same
function): explore from the start block with no target, pop the in-progress
working path, filter the completed paths for those containing the target
block, truncate each at the target block, deduplicate preserving order, and
truncate to `maxPaths`.  Returns `none` when the target or start block lookup
fails (the source would raise on `None.id`). -/
def getPaths (fc : List BB) (funcStartEa targetVA maxPaths fuel : Nat) :
    Option (List (List Nat)) :=
  match getBlockByVA fc targetVA, getStartBB fc funcStartEa with
  | some targetBB, some startBB =>
      let s := (explore fc none fuel startBB ⟨[], []⟩).2
      let paths := s.completed
      let targetPaths := paths.filter (fun p => targetBB.id ∈ p)
      let truncated := targetPaths.map (fun p => p.take (p.indexOf targetBB.id + 1))
      let uniq := truncated.foldl (fun acc p => if p ∈ acc then acc else acc ++ [p]) []
      some (uniq.take maxPaths)
  | _, _ => none

/-- Source `getPath(targetVA)`: explore with the target block as `end_bb`;
on success the returned index denotes the in-progress path (every frame
returns the found index unchanged), i.e. our `current`. -/
def getPath (fc : List BB) (funcStartEa targetVA fuel : Nat) :
    Option (List Nat) :=
  match getBlockByVA fc targetVA, getStartBB fc funcStartEa with
  | some targetBB, some startBB =>
      match explore fc (some targetBB.id) fuel startBB ⟨[], []⟩ with
      | (true, s) => some s.current
      | (false, _) => none
  | _, _ => none

/-- A function with a single basic block ending in a return instruction
(`fcb_ret`), occupying `[0x1000, 0x1010)`. -/
def singleRetBlockCFG : List BB := [⟨0, 0x1000, 0x1010, BBType.ret, []⟩]

/-- C2 (against the code): on a function whose flowchart is one `fcb_ret`
block, `getPaths` returns the one-element path `[0]` — not the empty list the
source's own comment ("this will return an empty list if there are no
branches in function") and the spec promise — while `getPath` returns the
one-element path `[0]` as claimed.  Evaluated at the failing input. -/
theorem getPaths_single_ret_block_eval :
    getPaths singleRetBlockCFG 0x1000 0x1008 10 16 = some [[0]] ∧
    getPath singleRetBlockCFG 0x1000 0x1008 16 = some [0] := by
  constructor
  · rfl
  · rfl

/-- Both components of the exploration state hold duplicate-free paths. -/
def StateNodup (s : ExploreState) : Prop :=
  (∀ p ∈ s.completed, p.Nodup) ∧ s.current.Nodup

/-- Invariant threaded through `_explore`: duplicate-free paths, and the
target block (if any) never occurring in the in-progress path — every visit
to the target block returns immediately, so it is never appended before the
final match. -/
def ExploreInv (endBB : Option Nat) (s : ExploreState) : Prop :=
  StateNodup s ∧ ∀ e, endBB = some e → e ∉ s.current

theorem nodup_append_singleton {l : List Nat} {a : Nat} (h : l.Nodup)
    (ha : a ∉ l) : (l ++ [a]).Nodup := by
  induction l with
  | nil => simp
  | cons x xs ih =>
      obtain ⟨hx, hxs⟩ := List.nodup_cons.mp h
      refine List.nodup_cons.mpr
        ⟨?_, ih hxs fun hmem => ha (List.mem_cons_of_mem x hmem)⟩
      intro hmem
      rcases List.mem_append.mp hmem with h1 | h1
      · exact hx h1
      · rcases List.mem_singleton.mp h1 with rfl
        exact ha (List.mem_cons_self x xs)

theorem exploreSuccs_inv (endBB : Option Nat)
    (step : BB → ExploreState → Bool × ExploreState)
    (hstep : ∀ b s, ExploreInv endBB s →
       StateNodup (step b s).2 ∧
       ((step b s).1 = false → ExploreInv endBB (step b s).2)) :
    ∀ (l : List BB) (s : ExploreState), ExploreInv endBB s →
      StateNodup (exploreSuccs step l s).2 ∧
      ((exploreSuccs step l s).1 = false →
        ExploreInv endBB (exploreSuccs step l s).2) := by
  intro l
  induction l with
  | nil => exact fun s hs => ⟨hs.1, fun _ => hs⟩
  | cons b rest ih =>
      intro s hs
      have hb := hstep b s hs
      rcases hsb : step b s with ⟨found, s1⟩
      rw [hsb] at hb
      cases found with
      | true =>
          have heq : exploreSuccs step (b :: rest) s = (true, s1) := by
            simp only [exploreSuccs, hsb]
          rw [heq]
          exact ⟨hb.1, fun hf => by cases hf⟩
      | false =>
          have heq : exploreSuccs step (b :: rest) s = exploreSuccs step rest s1 := by
            simp only [exploreSuccs, hsb]
          rw [heq]
          exact ih s1 (hb.2 rfl)

/-- The state invariant is preserved by `_explore` for every fuel; the
duplicate-freedom of both components holds even in the found case. -/
theorem explore_inv (fc : List BB) (endBB : Option Nat) :
    ∀ (fuel : Nat) (bb : BB) (s : ExploreState), ExploreInv endBB s →
      StateNodup (explore fc endBB fuel bb s).2 ∧
      ((explore fc endBB fuel bb s).1 = false →
        ExploreInv endBB (explore fc endBB fuel bb s).2) := by
  intro fuel
  induction fuel with
  | zero => exact fun bb s hs => ⟨hs.1, fun _ => hs⟩
  | succ fuel ih =>
      intro bb s hs
      obtain ⟨⟨hcomp, hcur⟩, hend⟩ := hs
      simp only [explore]
      by_cases h1 : endBB = some bb.id
      · rw [if_pos h1]
        refine ⟨⟨hcomp, nodup_append_singleton hcur (hend bb.id h1)⟩, ?_⟩
        intro hf
        cases hf
      · rw [if_neg h1]
        by_cases h2 : bb.id ∈ s.current
        · rw [if_pos h2]
          have hcomp2 : ∀ p ∈ s.completed ++ [s.current], p.Nodup := by
            intro p hp
            rcases List.mem_append.mp hp with hm | hm
            · exact hcomp p hm
            · rcases List.mem_singleton.mp hm with rfl
              exact hcur
          exact ⟨⟨hcomp2, hcur⟩, fun _ => ⟨⟨hcomp2, hcur⟩, hend⟩⟩
        · rw [if_neg h2]
          have hcur1 : (s.current ++ [bb.id]).Nodup := nodup_append_singleton hcur h2
          have hend1 : ∀ e, endBB = some e → e ∉ s.current ++ [bb.id] := by
            intro e he hmem
            rcases List.mem_append.mp hmem with hm | hm
            · exact hend e he hm
            · rcases List.mem_singleton.mp hm with rfl
              exact h1 he
          have hs1 : ExploreInv endBB ⟨s.completed, s.current ++ [bb.id]⟩ :=
            ⟨⟨hcomp, hcur1⟩, hend1⟩
          by_cases h3 : isTerminatingBB fc bb = true
          · rw [if_pos h3]
            have hcomp2 : ∀ p ∈ s.completed ++ [s.current ++ [bb.id]], p.Nodup := by
              intro p hp
              rcases List.mem_append.mp hp with hm | hm
              · exact hcomp p hm
              · rcases List.mem_singleton.mp hm with rfl
                exact hcur1
            have hdrop : (s.current ++ [bb.id]).dropLast.Nodup :=
              hcur1.sublist (List.dropLast_sublist _)
            have hend2 : ∀ e, endBB = some e → e ∉ (s.current ++ [bb.id]).dropLast :=
              fun e he hmem =>
                hend1 e he ((List.dropLast_sublist _).mem hmem)
            exact ⟨⟨hcomp2, hdrop⟩, fun _ => ⟨⟨hcomp2, hdrop⟩, hend2⟩⟩
          · rw [if_neg h3]
            have hsuccs := exploreSuccs_inv endBB (explore fc endBB fuel)
              (fun b s' hs' => ih b s' hs') (succBlocks fc bb)
              ⟨s.completed, s.current ++ [bb.id]⟩ hs1
            rcases hres : exploreSuccs (explore fc endBB fuel) (succBlocks fc bb)
                ⟨s.completed, s.current ++ [bb.id]⟩ with ⟨found, s2⟩
            rw [hres] at hsuccs
            cases found with
            | true => exact ⟨hsuccs.1, fun hf => by cases hf⟩
            | false =>
                obtain ⟨⟨hcomp2, hcur2⟩, hend2⟩ := hsuccs.2 rfl
                have hdrop : s2.current.dropLast.Nodup :=
                  hcur2.sublist (List.dropLast_sublist _)
                have hend3 : ∀ e, endBB = some e → e ∉ s2.current.dropLast :=
                  fun e he hmem => hend2 e he ((List.dropLast_sublist _).mem hmem)
                exact ⟨⟨hcomp2, hdrop⟩, fun _ => ⟨⟨hcomp2, hdrop⟩, hend3⟩⟩

theorem mem_pyUniq {l acc : List (List Nat)} {p : List Nat}
    (h : p ∈ l.foldl (fun acc q => if q ∈ acc then acc else acc ++ [q]) acc) :
    p ∈ acc ∨ p ∈ l := by
  induction l generalizing acc with
  | nil => exact Or.inl h
  | cons q rest ih =>
      simp only [List.foldl_cons] at h
      rcases ih h with h1 | h1
      · by_cases hq : q ∈ acc
        · rw [if_pos hq] at h1
          exact Or.inl h1
        · rw [if_neg hq] at h1
          rcases List.mem_append.mp h1 with h2 | h2
          · exact Or.inl h2
          · rcases List.mem_singleton.mp h2 with rfl
            exact Or.inr (List.mem_cons_self _ _)
      · exact Or.inr (List.mem_cons_of_mem q h1)

/-- Initial exploration state of `getPaths`/`getPath` and its invariant. -/
theorem exploreInv_init (endBB : Option Nat) :
    ExploreInv endBB ⟨[], []⟩ :=
  ⟨⟨fun p hp => absurd hp (List.not_mem_nil p), List.nodup_nil⟩,
   fun e _ hmem => absurd hmem (List.not_mem_nil e)⟩

/-- C3. Reaching a block already on the in-progress path is a dead end
handled like a terminating block: the path-so-far is snapshotted as a
completed path and exploration continues on a fresh copy; consequently every
path returned by `getPaths` and by `getPath` contains no repeated block
ids. -/
theorem explore_loop_cut_and_paths_nodup :
    (∀ (fc : List BB) (endBB : Option Nat) (fuel : Nat) (bb : BB)
       (s : ExploreState), bb.id ∈ s.current → endBB ≠ some bb.id →
       explore fc endBB (fuel + 1) bb s =
         (false, ⟨s.completed ++ [s.current], s.current⟩)) ∧
    (∀ fc funcStartEa targetVA maxPaths fuel paths,
       getPaths fc funcStartEa targetVA maxPaths fuel = some paths →
       ∀ p ∈ paths, p.Nodup) ∧
    (∀ fc funcStartEa targetVA fuel p,
       getPath fc funcStartEa targetVA fuel = some p → p.Nodup) := by
  refine ⟨?_, ?_, ?_⟩
  · intro fc endBB fuel bb s hmem hne
    simp only [explore]
    rw [if_neg hne, if_pos hmem]
  · intro fc funcStartEa targetVA maxPaths fuel paths hres p hp
    unfold getPaths at hres
    cases htb : getBlockByVA fc targetVA with
    | none => rw [htb] at hres; cases hres
    | some targetBB =>
        cases hsb : getStartBB fc funcStartEa with
        | none => rw [htb, hsb] at hres; cases hres
        | some startBB =>
            rw [htb, hsb] at hres
            injection hres with hres
            subst hres
            have hinv := (explore_inv fc none fuel startBB ⟨[], []⟩
              (exploreInv_init none)).1.1
            have hp1 := List.mem_of_mem_take hp
            rcases mem_pyUniq hp1 with hq | hq
            · exact absurd hq (List.not_mem_nil p)
            · obtain ⟨q, hq1, hq2⟩ := List.mem_map.mp hq
              have hq3 := List.mem_of_mem_filter hq1
              have hqn := hinv q hq3
              rw [← hq2]
              exact hqn.sublist (List.take_sublist _ _)
  · intro fc funcStartEa targetVA fuel p hres
    unfold getPath at hres
    cases htb : getBlockByVA fc targetVA with
    | none => rw [htb] at hres; cases hres
    | some targetBB =>
        cases hsb : getStartBB fc funcStartEa with
        | none => rw [htb, hsb] at hres; cases hres
        | some startBB =>
            rw [htb, hsb] at hres
            have hres2 : (match explore fc (some targetBB.id) fuel startBB ⟨[], []⟩ with
                | (true, s) => some s.current
                | (false, _) => none) = some p := hres
            rcases hexp : explore fc (some targetBB.id) fuel startBB ⟨[], []⟩ with
              ⟨found, s⟩
            rw [hexp] at hres2
            cases found with
            | false => cases hres2
            | true =>
                injection hres2 with hres2
                subst hres2
                have hinv := (explore_inv fc (some targetBB.id) fuel startBB ⟨[], []⟩
                  (exploreInv_init (some targetBB.id))).1
                rw [hexp] at hinv
                exact hinv.2

/-- Witness for C3: the loop-cut step at a concrete state, and the
duplicate-freedom of the concrete `getPath` result for the one-block
function. -/
theorem explore_loop_cut_and_paths_nodup_witness :
    explore [] none (0 + 1) ⟨0, 0, 0, BBType.normal, []⟩ ⟨[], [0]⟩ =
      (false, ⟨[[0]], [0]⟩) ∧ List.Nodup [0] :=
  ⟨explore_loop_cut_and_paths_nodup.1 [] none 0 ⟨0, 0, 0, BBType.normal, []⟩
      ⟨[], [0]⟩ (by decide) (by decide),
   explore_loop_cut_and_paths_nodup.2.2 singleRetBlockCFG 0x1000 0x1008 16 [0]
      (by rfl)⟩

/-! The `iterate` driver: target selection, visited-target bookkeeping, and
the outer while loop. -/

/-- Python `sorted(keys, reverse=True)`: a descending comparison sort. -/
def pySortDesc (l : List Nat) : List Nat := l.insertionSort (· ≥ ·)

/-- Source `stopEmulation`: append the pursued `targetVA` to
`visitedTargets` unless already present (under `iterate`,
`"visitedTargets" in userData` always holds — it is reset to `[]` before each
run), then `uc.emu_stop()`. -/
def stopEmulation (targetVA : Nat) (visited : List Nat) : List Nat :=
  if targetVA ∈ visited then visited else visited ++ [targetVA]

/-- The `visitedTargets` list at the end of one `uc.emu_start` run pursuing
`targetVA` along `path`.  `hookVisits` abstracts the appends made by
`_targetHit` for other pending targets hit en route (emulator behaviour
outside this model); the run ends in a `stopEmulation` call on the pursued
target — every terminal branch of `_guidedHook` (target hit, path exhausted,
invalid instruction, null memory) and its exception handler call
`stopEmulation`. -/
def runVisited (hookVisits : Nat → List Nat → List Nat)
    (targetVA : Nat) (path : List Nat) : List Nat :=
  stopEmulation targetVA (hookVisits targetVA path)

/-- Source `for addr in userData["visitedTargets"]: del targetInfo[addr]`. -/
def removeVisited (ti : List (Nat × List (List Nat))) (visited : List Nat) :
    List (Nat × List (List Nat)) :=
  ti.filter (fun e => decide (e.1 ∉ visited))

/-- Python `userData["targetInfo"][targetVA]`, paths component. -/
def lookupTarget (ti : List (Nat × List (List Nat))) (k : Nat) :
    List (List Nat) :=
  match ti.find? (fun e => e.1 == k) with
  | some e => e.2
  | none => []

/-- One iteration of the outer `while` loop of `iterate`: select the highest
remaining target (`sorted(keys, reverse=True)[0]`), run each of its paths,
and delete the targets visited during each run. -/
def iterateStep (hookVisits : Nat → List Nat → List Nat)
    (ti : List (Nat × List (List Nat))) : List (Nat × List (List Nat)) :=
  match (pySortDesc (ti.map Prod.fst)).head? with
  | none => ti
  | some targetVA =>
      (lookupTarget ti targetVA).foldl
        (fun acc path => removeVisited acc (runVisited hookVisits targetVA path)) ti

/-- The outer `while len(targetInfo) > 0` loop, with fuel (the source loop
has none; the claim theorem shows `ti.length` iterations always empty the
map). -/
def iterateLoop (hookVisits : Nat → List Nat → List Nat) :
    Nat → List (Nat × List (List Nat)) → List (Nat × List (List Nat))
  | 0, ti => ti
  | fuel + 1, ti =>
      if ti.isEmpty then ti
      else iterateLoop hookVisits fuel (iterateStep hookVisits ti)

theorem pySortDesc_head_max (l : List Nat) (hne : l ≠ []) :
    ∃ t, (pySortDesc l).head? = some t ∧ t ∈ l ∧ ∀ k ∈ l, k ≤ t := by
  have hperm := List.perm_insertionSort (α := Nat) (· ≥ ·) l
  have hsorted := List.sorted_insertionSort (α := Nat) (· ≥ ·) l
  cases hd : l.insertionSort (· ≥ ·) with
  | nil =>
      exfalso
      rw [hd] at hperm
      exact hne hperm.symm.eq_nil
  | cons t rest =>
      rw [hd] at hperm hsorted
      refine ⟨t, by simp [pySortDesc, hd], ?_, ?_⟩
      · exact hperm.mem_iff.mp (List.mem_cons_self t rest)
      · intro k hk
        rcases List.mem_cons.mp (hperm.mem_iff.mpr hk) with rfl | hk'
        · exact Nat.le_refl k
        · exact List.rel_of_sorted_cons hsorted k hk'

theorem mem_stopEmulation (t : Nat) (l : List Nat) : t ∈ stopEmulation t l := by
  unfold stopEmulation
  split
  · assumption
  · exact List.mem_append.mpr (Or.inr (List.mem_singleton.mpr rfl))

theorem mem_foldl_removeVisited {hv : Nat → List Nat → List Nat} {t : Nat}
    {paths : List (List Nat)} {acc : List (Nat × List (List Nat))}
    {e : Nat × List (List Nat)}
    (h : e ∈ paths.foldl
      (fun acc path => removeVisited acc (runVisited hv t path)) acc) :
    e ∈ acc ∧ ∀ path ∈ paths, e.1 ∉ runVisited hv t path := by
  induction paths generalizing acc with
  | nil => exact ⟨h, fun _ hp => absurd hp (List.not_mem_nil _)⟩
  | cons q rest ih =>
      simp only [List.foldl_cons] at h
      obtain ⟨h1, h2⟩ := ih h
      have h3 : e ∈ acc := List.mem_of_mem_filter h1
      have h4 : e.1 ∉ runVisited hv t q := by
        have h5 := List.of_mem_filter h1
        simpa using h5
      refine ⟨h3, ?_⟩
      intro path hp
      rcases List.mem_cons.mp hp with rfl | hp'
      · exact h4
      · exact h2 path hp'

theorem foldl_removeVisited_length {hv : Nat → List Nat → List Nat} {t : Nat}
    (paths : List (List Nat)) :
    ∀ acc : List (Nat × List (List Nat)),
      (paths.foldl
        (fun acc path => removeVisited acc (runVisited hv t path)) acc).length ≤
      acc.length := by
  induction paths with
  | nil => exact fun acc => Nat.le_refl _
  | cons q rest ih =>
      intro acc
      refine Nat.le_trans (ih _) ?_
      exact List.length_filter_le _ acc

theorem length_filter_lt_of_mem {α : Type} (l : List α) (a : α) (p : α → Bool)
    (ha : a ∈ l) (hp : p a = false) : (l.filter p).length < l.length := by
  induction l with
  | nil => cases ha
  | cons x xs ih =>
      simp only [List.filter]
      rcases List.mem_cons.mp ha with h | h
      · subst h
        rw [hp]
        simp only [List.length_cons]
        exact Nat.lt_succ_of_le (List.length_filter_le _ _)
      · cases hx : p x
        · exact Nat.lt_succ_of_lt (ih h)
        · simpa using Nat.succ_lt_succ (ih h)

theorem lookupTarget_mem (ti : List (Nat × List (List Nat))) (t : Nat)
    (ht : t ∈ ti.map Prod.fst) :
    ∃ e ∈ ti, e.1 = t ∧ lookupTarget ti t = e.2 := by
  unfold lookupTarget
  cases hf : ti.find? (fun e => e.1 == t) with
  | none =>
      exfalso
      obtain ⟨e, he, hfst⟩ := List.mem_map.mp ht
      have h1 := List.find?_eq_none.mp hf e he
      simp [hfst] at h1
  | some e =>
      have hp := List.find?_some hf
      have hm := List.mem_of_find?_eq_some hf
      simp only [beq_iff_eq] at hp
      exact ⟨e, hm, hp, rfl⟩

theorem iterateStep_subset (hv : Nat → List Nat → List Nat)
    (ti : List (Nat × List (List Nat))) :
    ∀ e ∈ iterateStep hv ti, e ∈ ti := by
  intro e he
  unfold iterateStep at he
  cases hh : (pySortDesc (ti.map Prod.fst)).head? with
  | none => rw [hh] at he; exact he
  | some t =>
      rw [hh] at he
      exact (mem_foldl_removeVisited he).1

theorem iterateStep_length_lt (hv : Nat → List Nat → List Nat)
    (ti : List (Nat × List (List Nat)))
    (hpaths : ∀ e ∈ ti, e.2 ≠ []) (hne : ti ≠ []) :
    (iterateStep hv ti).length < ti.length := by
  have hkeys : ti.map Prod.fst ≠ [] := by
    intro hc
    exact hne (List.map_eq_nil_iff.mp hc)
  obtain ⟨t, hh, htmem, -⟩ := pySortDesc_head_max (ti.map Prod.fst) hkeys
  obtain ⟨e0, he0, he0t, hlook⟩ := lookupTarget_mem ti t htmem
  unfold iterateStep
  rw [hh]
  show (List.foldl (fun acc path => removeVisited acc (runVisited hv t path)) ti
    (lookupTarget ti t)).length < ti.length
  rw [hlook]
  cases hq : e0.2 with
  | nil => exact absurd hq (hpaths e0 he0)
  | cons q qs =>
      simp only [List.foldl_cons]
      refine Nat.lt_of_le_of_lt (foldl_removeVisited_length qs _) ?_
      refine length_filter_lt_of_mem ti e0 _ he0 ?_
      simp only [decide_eq_false_iff_not, Decidable.not_not]
      rw [he0t]
      exact mem_stopEmulation t (hv t q)

theorem iterateLoop_empties (hv : Nat → List Nat → List Nat) :
    ∀ (fuel : Nat) (ti : List (Nat × List (List Nat))),
      (∀ e ∈ ti, e.2 ≠ []) → ti.length ≤ fuel →
      iterateLoop hv fuel ti = [] := by
  intro fuel
  induction fuel with
  | zero =>
      intro ti hp hle
      rw [List.length_eq_zero.mp (Nat.le_zero.mp hle)]
      rfl
  | succ fuel ih =>
      intro ti hp hle
      by_cases hni : ti = []
      · subst hni
        rfl
      · unfold iterateLoop
        rw [if_neg fun hcon => hni (List.isEmpty_iff.mp hcon)]
        refine ih (iterateStep hv ti) ?_ ?_
        · exact fun e he => hp e (iterateStep_subset hv ti e he)
        · have := iterateStep_length_lt hv ti hp hni
          omega

/-- C9. Each iteration of `iterate`'s outer loop pursues the largest address
remaining in `targetInfo` (`sorted(keys, reverse=True)[0]` is the maximum of
the keys); every target visited during the runs for that selection is deleted
from the map afterwards, and no entry is ever added, so the pending target
set shrinks monotonically across iterations. -/
theorem iterate_selects_max_and_shrinks (hookVisits : Nat → List Nat → List Nat)
    (ti : List (Nat × List (List Nat))) (hne : ti ≠ []) :
    (∃ t, (pySortDesc (ti.map Prod.fst)).head? = some t ∧
       t ∈ ti.map Prod.fst ∧ ∀ k ∈ ti.map Prod.fst, k ≤ t) ∧
    (∀ e ∈ iterateStep hookVisits ti, e ∈ ti) ∧
    (∀ t, (pySortDesc (ti.map Prod.fst)).head? = some t →
       ∀ a, (∃ p ∈ lookupTarget ti t, a ∈ runVisited hookVisits t p) →
         ∀ e ∈ iterateStep hookVisits ti, e.1 ≠ a) := by
  refine ⟨?_, iterateStep_subset hookVisits ti, ?_⟩
  · refine pySortDesc_head_max (ti.map Prod.fst) ?_
    intro hc
    exact hne (List.map_eq_nil_iff.mp hc)
  · intro t hh a ha e he heq
    obtain ⟨p, hp, hap⟩ := ha
    unfold iterateStep at he
    rw [hh] at he
    have h2 := (mem_foldl_removeVisited he).2 p hp
    rw [heq] at h2
    exact h2 hap

/-- Witness for C9 on a two-target map: `9` is selected over `5`. -/
theorem iterate_selects_max_and_shrinks_witness :
    (∃ t, (pySortDesc ([((5 : Nat), [[(0 : Nat)]]), (9, [[1]])].map Prod.fst)).head? =
        some t ∧
      t ∈ [((5 : Nat), [[(0 : Nat)]]), (9, [[1]])].map Prod.fst ∧
      ∀ k ∈ [((5 : Nat), [[(0 : Nat)]]), (9, [[1]])].map Prod.fst, k ≤ t) ∧
    (∀ e ∈ iterateStep (fun _ _ => []) [((5 : Nat), [[(0 : Nat)]]), (9, [[1]])],
       e ∈ [((5 : Nat), [[(0 : Nat)]]), (9, [[1]])]) ∧
    (∀ t, (pySortDesc ([((5 : Nat), [[(0 : Nat)]]), (9, [[1]])].map Prod.fst)).head? =
        some t →
      ∀ a, (∃ p ∈ lookupTarget [((5 : Nat), [[(0 : Nat)]]), (9, [[1]])] t,
              a ∈ runVisited (fun _ _ => []) t p) →
        ∀ e ∈ iterateStep (fun _ _ => []) [((5 : Nat), [[(0 : Nat)]]), (9, [[1]])],
          e.1 ≠ a) :=
  iterate_selects_max_and_shrinks (fun _ _ => [])
    [((5 : Nat), [[(0 : Nat)]]), (9, [[1]])] (by decide)

/-- C10. `stopEmulation` records the pursued target in `visitedTargets` even
when the run was abandoned without the target callback firing; hence every
run's final visited list contains the pursued target, each outer iteration on
a nonempty `targetInfo` whose entries all carry at least one path (as built
by `iterate` from `getPath`, which yields exactly one path per entry)
strictly shrinks the map, and the outer loop terminates with all targets
processed within `ti.length` iterations. -/
theorem stopEmulation_records_iterate_terminates
    (hookVisits : Nat → List Nat → List Nat)
    (ti : List (Nat × List (List Nat)))
    (hpaths : ∀ e ∈ ti, e.2 ≠ []) :
    (∀ t l, t ∈ stopEmulation t l) ∧
    (∀ t path, t ∈ runVisited hookVisits t path) ∧
    (ti ≠ [] → (iterateStep hookVisits ti).length < ti.length) ∧
    iterateLoop hookVisits ti.length ti = [] :=
  ⟨mem_stopEmulation,
   fun t path => mem_stopEmulation t (hookVisits t path),
   fun hne => iterateStep_length_lt hookVisits ti hpaths hne,
   iterateLoop_empties hookVisits ti.length ti hpaths (Nat.le_refl _)⟩

/-- Witness for C10 on a one-target map. -/
theorem stopEmulation_records_iterate_terminates_witness :
    (∀ t l, t ∈ stopEmulation t l) ∧
    (∀ t path, t ∈ runVisited (fun _ _ => []) t path) ∧
    ([((5 : Nat), [[(0 : Nat)]])] ≠ [] →
      (iterateStep (fun _ _ => []) [((5 : Nat), [[(0 : Nat)]])]).length <
        [((5 : Nat), [[(0 : Nat)]])].length) ∧
    iterateLoop (fun _ _ => []) [((5 : Nat), [[(0 : Nat)]])].length
      [((5 : Nat), [[(0 : Nat)]])] = [] :=
  stopEmulation_records_iterate_terminates (fun _ _ => [])
    [((5 : Nat), [[(0 : Nat)]])] (by decide)

end FlareEmu
